import Mathlib

/-!
# Verification of the Merkle evidence-aggregation core (`backend/app/core/merkle.py`)

A shallow embedding of the repository's Merkle tree module.  The module is
pure except for in-place mutation of the `MerkleTree` object, so every
mutating Python method becomes a Lean function `MerkleTree → result ×
MerkleTree` returning the value together with the post-state.  Python
exceptions on the proof-verification paths are modelled with `Option`
(`none` = the call raised) and, for the dead tree-bound inclusion method,
with `Except`.

The cryptographic hash `_hash_data(data) = hashlib.sha256(data.encode())
.hexdigest()` is abstracted as a parameter `H : String → String`: every
property claimed of the module is structural in the hash function, so each
theorem quantifies over `H` and holds in particular for SHA-256.
-/

namespace Merkle

/-- `MerkleNode` from the source: a dataclass with `hash`, optional `left`
and `right` children, and optional leaf `data`. -/
inductive MerkleNode : Type where
  | mk : (hash : String) → (left : Option MerkleNode) →
      (right : Option MerkleNode) → (data : Option String) → MerkleNode

/-- `node.hash` field access. -/
def MerkleNode.hash : MerkleNode → String
  | .mk h _ _ _ => h

/-- Placeholder node used to totalize list indexing that the Python source
performs only at indices known to be in range. -/
def defaultNode : MerkleNode := .mk "" none none none

/-- `MerkleProof` from the source: leaf hash, leaf index, sibling hashes in
leaf-to-root order, matching directions, and the claimed root. -/
structure MerkleProof : Type where
  leaf_hash : String
  leaf_index : Int
  proof_hashes : List String
  proof_directions : List String
  root_hash : String

/-- The `MerkleTree` object state: leaf data, computed leaf hashes, the
cached root node, and the per-level cache.  The source keys the cache dict
by consecutive levels `0, 1, …`, which we represent as a list of levels
(level 0 first). -/
structure MerkleTree : Type where
  leaves : List String
  leaf_hashes : List String
  root : Option MerkleNode
  tree_cache : List (List MerkleNode)

/-- `MerkleTree.__init__`: empty leaf store, no root, empty cache. -/
def MerkleTree.init : MerkleTree :=
  { leaves := [], leaf_hashes := [], root := none, tree_cache := [] }

/-- `MerkleTree.add_leaf`: hash the data, append `(data, hash)` to the leaf
store, clear the level cache and cached root, return the leaf hash. -/
def MerkleTree.add_leaf (H : String → String) (t : MerkleTree) (data : String) :
    String × MerkleTree :=
  let leaf_hash := H data
  (leaf_hash,
    { leaves := t.leaves ++ [data]
      leaf_hashes := t.leaf_hashes ++ [leaf_hash]
      root := none
      tree_cache := [] })

/-- Leaf node construction inside `build_tree`:
`MerkleNode(hash=leaf_hash, data=data)`. -/
def mkLeafNode (h : String) (d : String) : MerkleNode := .mk h none none (some d)

/-- One iteration of `build_tree`'s inner `for i in range(0, len, 2)` loop:
pair adjacent nodes left-to-right, `parent.hash = H(left.hash + right.hash)`;
when a lone node remains at the end of an odd-length level it is paired with
itself. -/
def pairNodes (H : String → String) : List MerkleNode → List MerkleNode
  | [] => []
  | [a] => [.mk (H (a.hash ++ a.hash)) (some a) (some a) none]
  | a :: b :: rest => .mk (H (a.hash ++ b.hash)) (some a) (some b) none :: pairNodes H rest

/-- Each pairing level halves the node count, rounding up. -/
theorem pairNodes_length (H : String → String) :
    ∀ l : List MerkleNode, (pairNodes H l).length = (l.length + 1) / 2
  | [] => by simp [pairNodes]
  | [_] => by simp [pairNodes]
  | _ :: _ :: rest => by
      simp only [pairNodes, List.length_cons, pairNodes_length H rest]
      omega

/-- The full contents of `_tree_cache` after `build_tree`'s `while` loop,
starting from a given level: the level itself, then all successive pairing
levels down to the single root level (the loop stores level 0 before
iterating and each produced level inside the loop, stopping at length 1). -/
def buildLevels (H : String → String) : List MerkleNode → List (List MerkleNode)
  | [] => [[]]
  | [a] => [[a]]
  | a :: b :: rest => (a :: b :: rest) :: buildLevels H (pairNodes H (a :: b :: rest))
  termination_by l => l.length
  decreasing_by simp [pairNodes_length]; omega

/-- The node `build_tree` leaves in `self.root`: the single node of the last
pairing level. -/
def buildRootNode (H : String → String) : List MerkleNode → MerkleNode
  | [] => defaultNode
  | [a] => a
  | a :: b :: rest => buildRootNode H (pairNodes H (a :: b :: rest))
  termination_by l => l.length
  decreasing_by simp [pairNodes_length]; omega

/-- `MerkleTree.build_tree`: empty tree roots at `H("")`; a single leaf is
its own root; otherwise build bottom-up from
`zip(leaf_hashes, leaves)` leaf nodes, caching every level, and set the root
to the final level's single node.  (In the single-leaf case the source reads
`self.leaves[0]` for the node's `data` field; on every state the module
constructs, `leaves` and `leaf_hashes` have equal length, so this is the
head.) -/
def MerkleTree.build_tree (H : String → String) (t : MerkleTree) :
    String × MerkleTree :=
  if t.leaf_hashes.isEmpty then
    let empty_hash := H ""
    (empty_hash, { t with root := some (.mk empty_hash none none none) })
  else if t.leaf_hashes.length = 1 then
    let rootNode : MerkleNode :=
      .mk (t.leaf_hashes.headD "") none none (some (t.leaves.headD ""))
    (rootNode.hash, { t with root := some rootNode })
  else
    let current_level := List.zipWith mkLeafNode t.leaf_hashes t.leaves
    let rootNode := buildRootNode H current_level
    (rootNode.hash,
      { t with root := some rootNode, tree_cache := buildLevels H current_level })

/-- `MerkleTree.get_root`: return the cached root's hash, building first if
no root is cached. -/
def MerkleTree.get_root (H : String → String) (t : MerkleTree) :
    String × MerkleTree :=
  match t.root with
  | none => t.build_tree H
  | some r => (r.hash, t)

/-- `MerkleProof.verify`'s loop: `enumerate(self.proof_hashes)` with
`self.proof_directions[i]` looked up at each step; a `'left'` direction puts
the sibling on the left of the concatenation.  Python raises `IndexError`
when `proof_directions` runs out before `proof_hashes`; the raise is
modelled by `none`. -/
def verifyChain (H : String → String) :
    List String → List String → String → Option String
  | [], _, current => some current
  | _ :: _, [], _ => none
  | ph :: phs, d :: ds, current =>
      let combined := if d = "left" then ph ++ current else current ++ ph
      verifyChain H phs ds (H combined)

/-- `MerkleProof.verify`: fold the sibling chain from `leaf_hash` and
compare the result with `root_hash` (`none` = the fold raised). -/
def MerkleProof.verify (H : String → String) (p : MerkleProof) : Option Bool :=
  (verifyChain H p.proof_hashes p.proof_directions p.leaf_hash).map
    (fun c => decide (c = p.root_hash))

/-- `MerkleTree.verify_proof`: `proof.root_hash == self.get_root() and
proof.verify()` — Python's `and` short-circuits, so a mismatched root
returns `False` without running the fold. -/
def MerkleTree.verify_proof (H : String → String) (t : MerkleTree)
    (p : MerkleProof) : Option Bool × MerkleTree :=
  let q := t.get_root H
  (if p.root_hash = q.1 then p.verify H else some false, q.2)

/-- The sibling-collection loop body of `get_proof_by_index`, run over the
levels `0 … len(cache) - 2`: even index → sibling at `index + 1`, direction
`"right"`; odd index → sibling at `index - 1`, direction `"left"`;
out-of-range sibling (duplicated last node) → the current node's own hash;
then ascend with `index // 2`. -/
def proofLoop : List (List MerkleNode) → Nat → List String × List String
  | [], _ => ([], [])
  | lvl :: rest, idx =>
      let sibling_index := if idx % 2 = 0 then idx + 1 else idx - 1
      let direction := if idx % 2 = 0 then "right" else "left"
      let sibling_hash :=
        if sibling_index < lvl.length then (lvl.getD sibling_index defaultNode).hash
        else (lvl.getD idx defaultNode).hash
      let r := proofLoop rest (idx / 2)
      (sibling_hash :: r.1, direction :: r.2)

/-- `MerkleTree.get_proof_by_index`: reject indices outside
`[0, len(leaf_hashes))` with `None`; ensure the tree is built; special-case
the single-leaf tree with empty proof lists; otherwise collect siblings from
the cached levels below the root. -/
def MerkleTree.get_proof_by_index (H : String → String) (t : MerkleTree)
    (leaf_index : Int) : Option MerkleProof × MerkleTree :=
  if leaf_index < 0 ∨ (t.leaf_hashes.length : Int) ≤ leaf_index then (none, t)
  else
    let q := t.get_root H
    let root_hash := q.1
    let t1 := q.2
    if t1.leaf_hashes.length = 1 then
      (some { leaf_hash := t1.leaf_hashes.headD ""
              leaf_index := 0
              proof_hashes := []
              proof_directions := []
              root_hash := root_hash }, t1)
    else
      let r := proofLoop t1.tree_cache.dropLast leaf_index.toNat
      (some { leaf_hash := t1.leaf_hashes.getD leaf_index.toNat ""
              leaf_index := leaf_index
              proof_hashes := r.1
              proof_directions := r.2
              root_hash := root_hash }, t1)

/-- Python's `list.index(value)` resolved to an optional index: the index
of the first occurrence, or `none` for the `ValueError` raised when the
value is absent. -/
def indexOf? (d : String) : List String → Option Nat
  | [] => none
  | a :: l => if a = d then some 0 else (indexOf? d l).map (· + 1)

/-- `MerkleTree.get_proof`: linear first-match lookup of the leaf data
(`self.leaves.index(...)`, whose `ValueError` on a missing value is caught
and turned into `None`), then delegate to `get_proof_by_index`. -/
def MerkleTree.get_proof (H : String → String) (t : MerkleTree)
    (leaf_data : String) : Option MerkleProof × MerkleTree :=
  match indexOf? leaf_data t.leaves with
  | none => (none, t)
  | some i => t.get_proof_by_index H (i : Int)

/-- Result of `MerkleTree.get_tree_info`. -/
structure TreeInfo : Type where
  total_leaves : Nat
  tree_height : Nat
  root_hash : String
  is_built : Bool

/-- `MerkleTree.get_tree_info`: the height is read from the cache (or the
leaf store) before `get_root()` runs; `root_hash` forces a build;
`is_built` is evaluated after that call. -/
def MerkleTree.get_tree_info (H : String → String) (t : MerkleTree) :
    TreeInfo × MerkleTree :=
  let tree_height :=
    if t.tree_cache.isEmpty then (if t.leaf_hashes.isEmpty then 0 else 1)
    else t.tree_cache.length
  let q := t.get_root H
  ({ total_leaves := t.leaf_hashes.length
     tree_height := tree_height
     root_hash := q.1
     is_built := q.2.root.isSome }, q.2)

/-- The dictionary produced by `MerkleTree.serialize`. -/
structure SerializedTree : Type where
  leaves : List String
  leaf_hashes : List String
  root_hash : String
  tree_info : TreeInfo

/-- `MerkleTree.serialize`: export leaves, leaf hashes, the current root
(forcing a build), and the tree statistics. -/
def MerkleTree.serialize (H : String → String) (t : MerkleTree) :
    SerializedTree × MerkleTree :=
  let q := t.get_root H
  let q2 := q.2.get_tree_info H
  ({ leaves := t.leaves
     leaf_hashes := t.leaf_hashes
     root_hash := q.1
     tree_info := q2.1 }, q2.2)

/-- `MerkleTree.deserialize`: start from a fresh tree, install the exported
`leaves` and `leaf_hashes`, and rebuild (when nonempty) — the exported
`root_hash` field is never read. -/
def MerkleTree.deserialize (H : String → String) (d : SerializedTree) :
    MerkleTree :=
  let t : MerkleTree :=
    { leaves := d.leaves, leaf_hashes := d.leaf_hashes
      root := none, tree_cache := [] }
  if d.leaf_hashes ≠ [] then (t.build_tree H).2 else t

/-- Python exceptions observable from the tree-bound
`MerkleTree.verify_evidence_inclusion` method. -/
inductive PyError : Type where
  | attributeError
deriving DecidableEq

/-- The tree-bound method `MerkleTree.verify_evidence_inclusion(evidence)`
(the evidence object is represented by the string `evidence.get_hash()`
returns): when the hash is absent from `leaf_hashes` it returns `False`;
when present it calls `self.generate_proof(leaf_index)` — a method that does
not exist anywhere on the `MerkleTree` class — so Python raises
`AttributeError` before any verification happens. -/
def MerkleTree.verify_evidence_inclusion (t : MerkleTree)
    (evidence_hash : String) : Except PyError Bool :=
  if evidence_hash ∈ t.leaf_hashes then .error .attributeError
  else .ok false

/-- `create_evidence_tree`: add every evidence hash as a leaf, then build. -/
def create_evidence_tree (H : String → String) (evidence_hashes : List String) :
    MerkleTree :=
  ((evidence_hashes.foldl (fun t h => (t.add_leaf H h).2) MerkleTree.init).build_tree H).2

/-- A proof dictionary as passed to the module-level
`verify_evidence_inclusion`: each key may be missing (`none`). -/
structure ProofDict : Type where
  leaf_hash : Option String
  leaf_index : Option Int
  proof_hashes : Option (List String)
  proof_directions : Option (List String)
  root_hash : Option String

/-- The dictionary of a well-formed proof object (`proof.to_dict()`). -/
def MerkleProof.to_dict (p : MerkleProof) : ProofDict :=
  { leaf_hash := some p.leaf_hash
    leaf_index := some p.leaf_index
    proof_hashes := some p.proof_hashes
    proof_directions := some p.proof_directions
    root_hash := some p.root_hash }

/-- The module-level `verify_evidence_inclusion(evidence_hash, proof,
expected_root)`: inside a `try` block it re-hashes the raw value, rebuilds a
`MerkleProof` from the dictionary (`KeyError` on a missing field), and
requires the leaf hash, the expected root, and the standalone fold to all
agree; every exception (missing key, or `IndexError` inside `verify`) is
caught and turned into `False`. -/
def verify_evidence_inclusion (H : String → String) (evidence_hash : String)
    (proof : ProofDict) (expected_root : String) : Bool :=
  match proof.leaf_hash, proof.leaf_index, proof.proof_hashes,
      proof.proof_directions, proof.root_hash with
  | some lh, some li, some phs, some pds, some rh =>
      let actual_leaf_hash := H evidence_hash
      let mp : MerkleProof :=
        { leaf_hash := lh, leaf_index := li, proof_hashes := phs
          proof_directions := pds, root_hash := rh }
      if mp.leaf_hash = actual_leaf_hash ∧ mp.root_hash = expected_root then
        (mp.verify H).getD false
      else false
  | _, _, _, _, _ => false

/-- The tree obtained from a sequence of `add_leaf` calls on a fresh tree. -/
def ofLeaves (H : String → String) (ls : List String) : MerkleTree :=
  ls.foldl (fun t d => (t.add_leaf H d).2) MerkleTree.init

/-!
## The reference computation, stated on hash strings

The specification describes the root as a bottom-up fold over levels of hex
strings: pair adjacent hashes left-to-right, `parent = H(left || right)`,
pair an odd level's final node with itself, stop at a single node.  The
definitions below write that description out; the theorems relate the
node-building code above to them.
-/

/-- One reference level: pair adjacent hashes left-to-right with
`H(left || right)`; an odd level's final unpaired hash is paired with
itself, never promoted unchanged. -/
def levelUp (H : String → String) : List String → List String
  | [] => []
  | [a] => [H (a ++ a)]
  | a :: b :: rest => H (a ++ b) :: levelUp H rest

/-- A reference level halves the hash count, rounding up. -/
theorem levelUp_length (H : String → String) :
    ∀ hs : List String, (levelUp H hs).length = (hs.length + 1) / 2
  | [] => by simp [levelUp]
  | [_] => by simp [levelUp]
  | _ :: _ :: rest => by
      simp only [levelUp, List.length_cons, levelUp_length H rest]
      omega

/-- The reference root of a list of leaf hashes: `H("")` for an empty list,
the hash itself for a single leaf, and otherwise the bottom-up fold of
reference levels down to a single hash. -/
def rootSpec (H : String → String) : List String → String
  | [] => H ""
  | [a] => a
  | a :: b :: rest => rootSpec H (levelUp H (a :: b :: rest))
  termination_by hs => hs.length
  decreasing_by simp [levelUp_length]; omega

/-- The reference root of a leaf-data sequence, exactly as the specification
states it: hash every leaf, then fold the levels. -/
def referenceRoot (H : String → String) (ls : List String) : String :=
  rootSpec H (ls.map H)

/-- The specification's sibling rule at one level: an even index pairs with
`index + 1` on the right, an odd index with `index - 1` on the left; a
sibling index out of range for the level (the duplicated last node) falls
back to the current hash itself. -/
def siblingStep (hs : List String) (i : Nat) : String × String :=
  if i % 2 = 0 then
    (if i + 1 < hs.length then hs.getD (i + 1) "" else hs.getD i "", "right")
  else
    (hs.getD (i - 1) "", "left")

/-- The specification's proof-generation walk: one sibling hash and one
direction per level below the root, ascending with `index / 2`; a
single-hash level contributes nothing. -/
def proofSpec (H : String → String) : List String → Nat → List String × List String
  | [], _ => ([], [])
  | [_], _ => ([], [])
  | a :: b :: rest, i =>
      let s := siblingStep (a :: b :: rest) i
      let r := proofSpec H (levelUp H (a :: b :: rest)) (i / 2)
      (s.1 :: r.1, s.2 :: r.2)
  termination_by hs _ => hs.length
  decreasing_by simp [levelUp_length]; omega

/-- The specification's standalone verification fold: starting from the
leaf hash, absorb each `(sibling, direction)` pair in order, a `"left"`
sibling on the left of the concatenation. -/
def specFold (H : String → String) (leaf_hash : String)
    (pairs : List (String × String)) : String :=
  pairs.foldl
    (fun current sd =>
      if sd.2 = "left" then H (sd.1 ++ current) else H (current ++ sd.1))
    leaf_hash

/-!
## Level and chain lemmas
-/

/-- `getD` on a hash-projected node list. -/
theorem getD_map_hash :
    ∀ (l : List MerkleNode) (k : Nat), k < l.length →
      (l.getD k defaultNode).hash = (l.map MerkleNode.hash).getD k ""
  | [], k, hk => by simp at hk
  | a :: t, 0, _ => by simp [List.getD]
  | a :: t, k + 1, hk => by
      simp only [List.getD_cons_succ, List.map_cons]
      exact getD_map_hash t k (by simpa using hk)

/-- Hash projection commutes with one pairing level. -/
theorem pairNodes_hashes (H : String → String) :
    ∀ l : List MerkleNode,
      (pairNodes H l).map MerkleNode.hash = levelUp H (l.map MerkleNode.hash)
  | [] => rfl
  | [a] => by simp [pairNodes, levelUp, MerkleNode.hash]
  | a :: b :: rest => by
      simp [pairNodes, levelUp, pairNodes_hashes H rest, MerkleNode.hash]

/-- The level cache is never the empty list of levels. -/
theorem buildLevels_ne_nil (H : String → String) :
    ∀ l : List MerkleNode, buildLevels H l ≠ []
  | [] => by simp [buildLevels]
  | [a] => by simp [buildLevels]
  | a :: b :: rest => by simp [buildLevels]

/-- The root node's hash is the reference root of the level's hashes. -/
theorem buildRootNode_hash (H : String → String) :
    ∀ l : List MerkleNode, l ≠ [] →
      (buildRootNode H l).hash = rootSpec H (l.map MerkleNode.hash)
  | [], h => absurd rfl h
  | [a], _ => by simp [buildRootNode, rootSpec]
  | a :: b :: rest, _ => by
      rw [buildRootNode, buildRootNode_hash H (pairNodes H (a :: b :: rest))
        (by simp [pairNodes]), pairNodes_hashes]
      simp [rootSpec, levelUp]
  termination_by l _ => l.length
  decreasing_by simp [pairNodes_length]; omega

/-- The hashes of the leaf-node level are exactly the leaf hashes, when the
two stores have equal length. -/
theorem zipWith_mkLeafNode_hashes :
    ∀ (hs ds : List String), hs.length = ds.length →
      (List.zipWith mkLeafNode hs ds).map MerkleNode.hash = hs
  | [], _, _ => by simp
  | _ :: _, [], h => by simp at h
  | a :: hs, d :: ds, h => by
      simp only [List.zipWith_cons_cons, List.map_cons, List.cons.injEq]
      exact ⟨rfl, zipWith_mkLeafNode_hashes hs ds (by simpa using h)⟩

/-- Folding one step with the specification's sibling rule lands on the
parent level at the halved index. -/
theorem siblingStep_fold (H : String → String) :
    ∀ (hs : List String) (i : Nat), i < hs.length →
      (if (siblingStep hs i).2 = "left"
        then H ((siblingStep hs i).1 ++ hs.getD i "")
        else H (hs.getD i "" ++ (siblingStep hs i).1))
        = (levelUp H hs).getD (i / 2) ""
  | [], i, hi => by simp at hi
  | [a], i, hi => by
      obtain rfl : i = 0 := by simpa using hi
      simp [siblingStep, levelUp]
  | a :: b :: rest, 0, _ => by
      simp [siblingStep, levelUp]
  | a :: b :: rest, 1, _ => by
      simp [siblingStep, levelUp]
  | a :: b :: rest, (j + 2), hi => by
      have hj : j < rest.length := by simpa using hi
      have ih := siblingStep_fold H rest j hj
      have hmod : (j + 2) % 2 = j % 2 := Nat.add_mod_right j 2
      have hdiv : (j + 2) / 2 = j / 2 + 1 := Nat.add_div_right j (by norm_num)
      have e1 : (a :: b :: rest).getD (j + 2) "" = rest.getD j "" := rfl
      have elvl : levelUp H (a :: b :: rest) = H (a ++ b) :: levelUp H rest := by
        simp [levelUp]
      have e2 : (levelUp H (a :: b :: rest)).getD ((j + 2) / 2) ""
          = (levelUp H rest).getD (j / 2) "" := by
        rw [hdiv, elvl]
        rfl
      have e3 : siblingStep (a :: b :: rest) (j + 2) = siblingStep rest j := by
        by_cases hp : j % 2 = 0
        · unfold siblingStep
          rw [hmod, if_pos hp, if_pos hp]
          rcases Nat.lt_or_ge (j + 1) rest.length with hc | hc
          · rw [if_pos (by simp only [List.length_cons]; omega), if_pos hc]
            rfl
          · rw [if_neg (by simp only [List.length_cons]; omega), if_neg (by omega)]
            rfl
        · obtain ⟨k, rfl⟩ : ∃ k, j = k + 1 := ⟨j - 1, by omega⟩
          unfold siblingStep
          rw [hmod, if_neg hp, if_neg hp]
          rfl
      rw [e1, e2, e3]
      exact ih

/-- The specification walk emits one sibling and one direction per level:
the two lists always have equal length. -/
theorem proofSpec_length (H : String → String) :
    ∀ (hs : List String) (i : Nat),
      (proofSpec H hs i).1.length = (proofSpec H hs i).2.length
  | [], _ => by simp [proofSpec]
  | [_], _ => by simp [proofSpec]
  | a :: b :: rest, i => by
      simp only [proofSpec, List.length_cons]
      rw [proofSpec_length H (levelUp H (a :: b :: rest)) (i / 2)]
  termination_by hs _ => hs.length
  decreasing_by simp [levelUp_length]; omega

/-- Completeness of the fold against the specification walk: starting from
the leaf hash at any in-range index, absorbing the walk's siblings
reproduces the reference root, with no index error. -/
theorem verifyChain_proofSpec (H : String → String) :
    ∀ (hs : List String) (i : Nat), i < hs.length →
      verifyChain H (proofSpec H hs i).1 (proofSpec H hs i).2 (hs.getD i "")
        = some (rootSpec H hs)
  | [], i, hi => by simp at hi
  | [a], i, hi => by
      obtain rfl : i = 0 := by simpa using hi
      simp [proofSpec, verifyChain, rootSpec]
  | a :: b :: rest, i, hi => by
      have hstep := siblingStep_fold H (a :: b :: rest) i hi
      have hlt : i / 2 < (levelUp H (a :: b :: rest)).length := by
        rw [levelUp_length]
        simp only [List.length_cons] at hi ⊢
        omega
      have ih := verifyChain_proofSpec H (levelUp H (a :: b :: rest)) (i / 2) hlt
      have hroot : rootSpec H (a :: b :: rest)
          = rootSpec H (levelUp H (a :: b :: rest)) := by
        simp [rootSpec]
      simp only [proofSpec, verifyChain]
      rw [apply_ite H, hstep, ih, hroot]
  termination_by hs _ _ => hs.length
  decreasing_by simp [levelUp_length]; omega

/-- The fold raises (returns `none`) exactly when the directions list is
shorter than the hashes list. -/
theorem verifyChain_eq_none_iff (H : String → String) :
    ∀ (phs pds : List String) (cur : String),
      verifyChain H phs pds cur = none ↔ pds.length < phs.length
  | [], pds, cur => by simp [verifyChain]
  | p :: phs, [], cur => by simp [verifyChain]
  | p :: phs, d :: pds, cur => by
      simp only [verifyChain, List.length_cons]
      rw [verifyChain_eq_none_iff H phs pds]
      omega

/-- With enough directions, the fold computes exactly the specification's
left fold over the zipped `(sibling, direction)` pairs. -/
theorem verifyChain_eq_specFold (H : String → String) :
    ∀ (phs pds : List String) (cur : String), phs.length ≤ pds.length →
      verifyChain H phs pds cur = some (specFold H cur (phs.zip pds))
  | [], pds, cur, _ => by simp [verifyChain, specFold]
  | p :: phs, [], cur, h => by simp at h
  | p :: phs, d :: pds, cur, h => by
      simp only [verifyChain, List.zip_cons_cons, specFold, List.foldl_cons]
      rw [verifyChain_eq_specFold H phs pds _ (by simpa using h)]
      rw [apply_ite H]
      rfl

/-- The sibling hash `get_proof_by_index` reads off a node level is the
specification's sibling rule on the level's hashes. -/
theorem siblingStep_nodes (l : List MerkleNode) (i : Nat) (hi : i < l.length) :
    (if (if i % 2 = 0 then i + 1 else i - 1) < l.length then
        (l.getD (if i % 2 = 0 then i + 1 else i - 1) defaultNode).hash
      else (l.getD i defaultNode).hash)
      = (siblingStep (l.map MerkleNode.hash) i).1 := by
  by_cases hp : i % 2 = 0
  · simp only [hp, reduceIte, siblingStep, List.length_map, if_pos rfl]
    by_cases hc : i + 1 < l.length
    · rw [if_pos hc, if_pos hc, getD_map_hash _ _ hc]
    · rw [if_neg hc, if_neg hc, getD_map_hash _ _ hi]
  · simp only [if_neg hp, siblingStep, List.length_map]
    rw [if_pos (by omega : i - 1 < l.length),
      getD_map_hash _ _ (by omega : i - 1 < l.length)]

/-- The direction `get_proof_by_index` records is the specification's. -/
theorem siblingStep_dir (hs : List String) (i : Nat) :
    (if i % 2 = 0 then "right" else "left") = (siblingStep hs i).2 := by
  by_cases hp : i % 2 = 0 <;> simp [siblingStep, hp]

/-- The sibling-collection loop over the cached levels below the root
computes the specification walk on the levels' hashes. -/
theorem proofLoop_spec (H : String → String) :
    ∀ (l : List MerkleNode) (i : Nat), i < l.length →
      proofLoop ((buildLevels H l).dropLast) i
        = proofSpec H (l.map MerkleNode.hash) i
  | [], i, hi => by simp at hi
  | [a], i, hi => by
      simp [buildLevels, proofLoop, proofSpec]
  | a :: b :: rest, i, hi => by
      have hlen : i / 2 < (pairNodes H (a :: b :: rest)).length := by
        rw [pairNodes_length]
        simp only [List.length_cons] at hi ⊢
        omega
      have ih := proofLoop_spec H (pairNodes H (a :: b :: rest)) (i / 2) hlen
      obtain ⟨y, ys, hys⟩ : ∃ y ys,
          buildLevels H (pairNodes H (a :: b :: rest)) = y :: ys := by
        rcases h : buildLevels H (pairNodes H (a :: b :: rest)) with _ | ⟨y, ys⟩
        · exact absurd h (buildLevels_ne_nil H _)
        · exact ⟨y, ys, rfl⟩
      have hunfold : buildLevels H (a :: b :: rest)
          = (a :: b :: rest) :: buildLevels H (pairNodes H (a :: b :: rest)) := by
        simp [buildLevels]
      rw [hunfold, hys, List.dropLast_cons₂, ← hys]
      simp only [proofLoop]
      rw [ih, pairNodes_hashes]
      have hmap : (a :: b :: rest).map MerkleNode.hash
          = a.hash :: b.hash :: rest.map MerkleNode.hash := rfl
      rw [hmap]
      simp only [proofSpec]
      rw [← hmap]
      rw [siblingStep_nodes (a :: b :: rest) i hi,
        siblingStep_dir ((a :: b :: rest).map MerkleNode.hash) i]
  termination_by l _ _ => l.length
  decreasing_by simp [pairNodes_length]; omega

/-!
## Tree-state lemmas and the cache-consistency invariant
-/

/-- `build_tree` never touches the leaf stores. -/
theorem build_tree_snd_leaves (H : String → String) (t : MerkleTree) :
    ((t.build_tree H).2).leaves = t.leaves
      ∧ ((t.build_tree H).2).leaf_hashes = t.leaf_hashes := by
  unfold MerkleTree.build_tree
  split_ifs <;> simp

/-- `build_tree` always leaves a cached root behind. -/
theorem build_tree_snd_root_isSome (H : String → String) (t : MerkleTree) :
    ((t.build_tree H).2).root.isSome := by
  unfold MerkleTree.build_tree
  split_ifs <;> simp

/-- The root node `build_tree` caches carries the returned root hash. -/
theorem build_tree_snd_root_hash (H : String → String) (t : MerkleTree) :
    ∀ r, ((t.build_tree H).2).root = some r → r.hash = (t.build_tree H).1 := by
  unfold MerkleTree.build_tree
  split_ifs <;> intro r hr <;> simp_all [MerkleNode.hash] <;> subst hr <;> rfl

/-- `build_tree` returns the reference root of the current leaf hashes,
whenever the two leaf stores have equal length. -/
theorem build_tree_fst (H : String → String) (t : MerkleTree)
    (hsync : t.leaf_hashes.length = t.leaves.length) :
    (t.build_tree H).1 = rootSpec H t.leaf_hashes := by
  unfold MerkleTree.build_tree
  rcases ht : t.leaf_hashes with _ | ⟨a, _ | ⟨b, rest⟩⟩
  · simp [rootSpec]
  · simp [rootSpec, MerkleNode.hash]
  · have hlen : (a :: b :: rest).length = t.leaves.length := by rw [← ht, hsync]
    have hne : List.zipWith mkLeafNode (a :: b :: rest) t.leaves ≠ [] := by
      intro hcon
      have hz := congrArg List.length hcon
      rw [List.length_zipWith] at hz
      simp only [List.length_cons, List.length_nil] at hz hlen
      omega
    have hmap :
        (List.zipWith mkLeafNode (a :: b :: rest) t.leaves).map MerkleNode.hash
          = a :: b :: rest := zipWith_mkLeafNode_hashes _ _ hlen
    rw [if_neg (by simp), if_neg (by simp only [List.length_cons]; omega)]
    dsimp only
    rw [buildRootNode_hash H _ hne, hmap]

/-- For trees of at least two leaves, `build_tree` installs exactly the
level decomposition of the current leaf store as the cache. -/
theorem build_tree_cache (H : String → String) (t : MerkleTree)
    (h2 : 2 ≤ t.leaf_hashes.length) :
    ((t.build_tree H).2).tree_cache
      = buildLevels H (List.zipWith mkLeafNode t.leaf_hashes t.leaves) := by
  unfold MerkleTree.build_tree
  rw [if_neg (by intro hcon; rw [List.isEmpty_iff] at hcon; rw [hcon] at h2; simp at h2),
    if_neg (by omega)]

/-- For trees of at most one leaf, `build_tree` leaves the cache alone. -/
theorem build_tree_cache_small (H : String → String) (t : MerkleTree)
    (h1 : t.leaf_hashes.length ≤ 1) :
    ((t.build_tree H).2).tree_cache = t.tree_cache := by
  unfold MerkleTree.build_tree
  split_ifs with hA hB
  · simp
  · simp
  · exfalso
    have hne : t.leaf_hashes ≠ [] := by
      intro hcon
      rw [hcon] at hA
      simp at hA
    have := List.length_pos.mpr hne
    omega

/-- `get_root` never touches the leaf stores. -/
theorem get_root_snd_leaves (H : String → String) (t : MerkleTree) :
    ((t.get_root H).2).leaves = t.leaves
      ∧ ((t.get_root H).2).leaf_hashes = t.leaf_hashes := by
  unfold MerkleTree.get_root
  split
  · exact build_tree_snd_leaves H t
  · exact ⟨rfl, rfl⟩

/-- After `get_root`, a root is cached. -/
theorem get_root_snd_root_isSome (H : String → String) (t : MerkleTree) :
    ((t.get_root H).2).root.isSome := by
  unfold MerkleTree.get_root
  split
  · exact build_tree_snd_root_isSome H t
  · simp_all

/-- `get_root` on an already-built tree is the identity on the state. -/
theorem get_root_snd_of_isSome (H : String → String) (t : MerkleTree)
    (h : t.root.isSome) : (t.get_root H).2 = t := by
  unfold MerkleTree.get_root
  split
  · simp_all
  · rfl

/-- The cache-consistency invariant of a tree state: the hash store mirrors
the data store; a non-empty level cache is exactly the level decomposition
of the current leaf store (which then has at least two leaves); a cached
root node carries the reference root of the current leaf hashes; and a
built tree with at least two leaves has a non-empty cache. -/
structure Inv (H : String → String) (t : MerkleTree) : Prop where
  synced : t.leaf_hashes = t.leaves.map H
  cache_inv : t.tree_cache ≠ [] →
    t.tree_cache = buildLevels H (List.zipWith mkLeafNode t.leaf_hashes t.leaves)
      ∧ 2 ≤ t.leaf_hashes.length
  root_inv : ∀ r, t.root = some r → r.hash = rootSpec H t.leaf_hashes
  built_cache : t.root.isSome → 2 ≤ t.leaf_hashes.length → t.tree_cache ≠ []

/-- Length agreement of the two leaf stores, from the invariant. -/
theorem Inv.length_eq {H : String → String} {t : MerkleTree} (h : Inv H t) :
    t.leaf_hashes.length = t.leaves.length := by
  rw [h.synced, List.length_map]

/-- The fresh tree satisfies the invariant. -/
theorem Inv.init (H : String → String) : Inv H MerkleTree.init := by
  refine ⟨rfl, ?_, ?_, ?_⟩ <;> simp [MerkleTree.init]

/-- `add_leaf` preserves the invariant (it clears the cache and root). -/
theorem Inv.add_leaf {H : String → String} {t : MerkleTree} (h : Inv H t)
    (d : String) : Inv H ((t.add_leaf H d).2) := by
  refine ⟨?_, ?_, ?_, ?_⟩ <;> simp [MerkleTree.add_leaf, h.synced]

/-- `build_tree` preserves the invariant. -/
theorem Inv.build_tree {H : String → String} {t : MerkleTree} (h : Inv H t) :
    Inv H ((t.build_tree H).2) := by
  have hleaves := build_tree_snd_leaves H t
  have hfst := build_tree_fst H t h.length_eq
  refine ⟨?_, ?_, ?_, ?_⟩
  · rw [hleaves.1, hleaves.2, h.synced]
  · intro hne
    rw [hleaves.1, hleaves.2]
    rcases Nat.lt_or_ge t.leaf_hashes.length 2 with hs | hs
    · rw [build_tree_cache_small H t (by omega)] at hne
      rcases h.cache_inv hne with ⟨_, h2⟩
      omega
    · exact ⟨by rw [build_tree_cache H t hs], hs⟩
  · intro r hr
    rw [hleaves.2, ← hfst]
    exact build_tree_snd_root_hash H t r hr
  · intro _ h2
    rw [hleaves.2] at h2
    rw [build_tree_cache H t h2]
    exact buildLevels_ne_nil H _

/-- `get_root` preserves the invariant. -/
theorem Inv.get_root {H : String → String} {t : MerkleTree} (h : Inv H t) :
    Inv H ((t.get_root H).2) := by
  unfold MerkleTree.get_root
  split
  · exact h.build_tree
  · exact h

/-- `get_root` returns the reference root of the current leaf hashes. -/
theorem get_root_fst {H : String → String} {t : MerkleTree} (h : Inv H t) :
    (t.get_root H).1 = rootSpec H t.leaf_hashes := by
  unfold MerkleTree.get_root
  split
  · exact build_tree_fst H t h.length_eq
  · rename_i r heq
    exact h.root_inv r heq

/-- After `get_root` on a tree of at least two leaves, the cache is the
level decomposition of the leaf store. -/
theorem get_root_cache {H : String → String} {t : MerkleTree} (h : Inv H t)
    (h2 : 2 ≤ t.leaf_hashes.length) :
    ((t.get_root H).2).tree_cache
      = buildLevels H (List.zipWith mkLeafNode t.leaf_hashes t.leaves) := by
  unfold MerkleTree.get_root
  split
  · exact build_tree_cache H t h2
  · rename_i r heq
    exact (h.cache_inv (h.built_cache (by rw [heq]; rfl) h2)).1

/-- The root node cached after `get_root` carries the returned hash. -/
theorem get_root_fst_root_hash (H : String → String) (t : MerkleTree) :
    ∀ r, ((t.get_root H).2).root = some r → r.hash = (t.get_root H).1 := by
  unfold MerkleTree.get_root
  split
  · exact build_tree_snd_root_hash H t
  · rename_i r heq
    intro r' hr'
    rw [heq] at hr'
    cases hr'
    rfl

/-- `get_proof_by_index` either rejects the index (state untouched) or
forces a build via `get_root`. -/
theorem get_proof_by_index_snd (H : String → String) (t : MerkleTree) (i : Int) :
    (t.get_proof_by_index H i).2 = t
      ∨ (t.get_proof_by_index H i).2 = (t.get_root H).2 := by
  by_cases h : (i < 0 ∨ (t.leaf_hashes.length : Int) ≤ i)
  · left
    simp [MerkleTree.get_proof_by_index, h]
  · right
    simp only [MerkleTree.get_proof_by_index, if_neg h]
    split_ifs <;> rfl

/-- `get_proof` either misses (state untouched) or behaves as
`get_proof_by_index`. -/
theorem get_proof_snd (H : String → String) (t : MerkleTree) (d : String) :
    (t.get_proof H d).2 = t ∨ (t.get_proof H d).2 = (t.get_root H).2 := by
  unfold MerkleTree.get_proof
  split
  · exact Or.inl rfl
  · exact get_proof_by_index_snd H t _

/-- `verify_proof` mutates exactly as `get_root` does. -/
theorem verify_proof_snd (H : String → String) (t : MerkleTree) (p : MerkleProof) :
    (t.verify_proof H p).2 = (t.get_root H).2 := rfl

/-- `get_tree_info` mutates exactly as `get_root` does. -/
theorem get_tree_info_snd (H : String → String) (t : MerkleTree) :
    (t.get_tree_info H).2 = (t.get_root H).2 := rfl

/-- `serialize` mutates exactly as `get_root` does (its second `get_root`
finds the tree already built). -/
theorem serialize_snd (H : String → String) (t : MerkleTree) :
    (t.serialize H).2 = (t.get_root H).2 := by
  show (((t.get_root H).2).get_root H).2 = (t.get_root H).2
  rw [get_root_snd_of_isSome H _ (get_root_snd_root_isSome H t)]

/-- The exported dictionary carries the current leaf stores verbatim. -/
theorem serialize_fst_stores (H : String → String) (t : MerkleTree) :
    ((t.serialize H).1).leaves = t.leaves
      ∧ ((t.serialize H).1).leaf_hashes = t.leaf_hashes :=
  ⟨rfl, rfl⟩

/-- `deserialize` of a dictionary whose hash list mirrors its leaf list
produces an invariant-satisfying tree. -/
theorem Inv.deserialize (H : String → String) (d : SerializedTree)
    (hs : d.leaf_hashes = d.leaves.map H) :
    Inv H (MerkleTree.deserialize H d) := by
  have hbase : Inv H ⟨d.leaves, d.leaf_hashes, none, []⟩ := by
    refine ⟨hs, ?_, ?_, ?_⟩ <;> simp
  unfold MerkleTree.deserialize
  split_ifs with hcond
  · exact hbase.build_tree
  · exact hbase

/-- The tree states reachable by the module's own operations from a fresh
tree (deserialization is taken over an exported document whose root field
may have been tampered with in transit). -/
inductive Reachable (H : String → String) : MerkleTree → Prop where
  | init : Reachable H MerkleTree.init
  | add_leaf (t : MerkleTree) (d : String) :
      Reachable H t → Reachable H ((t.add_leaf H d).2)
  | build_tree (t : MerkleTree) :
      Reachable H t → Reachable H ((t.build_tree H).2)
  | get_root (t : MerkleTree) :
      Reachable H t → Reachable H ((t.get_root H).2)
  | get_proof (t : MerkleTree) (d : String) :
      Reachable H t → Reachable H ((t.get_proof H d).2)
  | get_proof_by_index (t : MerkleTree) (i : Int) :
      Reachable H t → Reachable H ((t.get_proof_by_index H i).2)
  | verify_proof (t : MerkleTree) (p : MerkleProof) :
      Reachable H t → Reachable H ((t.verify_proof H p).2)
  | get_tree_info (t : MerkleTree) :
      Reachable H t → Reachable H ((t.get_tree_info H).2)
  | serialize (t : MerkleTree) :
      Reachable H t → Reachable H ((t.serialize H).2)
  | deserialize (t : MerkleTree) (x : String) :
      Reachable H t →
      Reachable H (MerkleTree.deserialize H { (t.serialize H).1 with root_hash := x })

/-- Every reachable tree state satisfies the invariant. -/
theorem Reachable.inv {H : String → String} {t : MerkleTree}
    (h : Reachable H t) : Inv H t := by
  induction h with
  | init => exact Inv.init H
  | add_leaf t d _ ih => exact ih.add_leaf d
  | build_tree t _ ih => exact ih.build_tree
  | get_root t _ ih => exact ih.get_root
  | get_proof t d _ ih =>
      rcases get_proof_snd H t d with he | he <;> rw [he]
      · exact ih
      · exact ih.get_root
  | get_proof_by_index t i _ ih =>
      rcases get_proof_by_index_snd H t i with he | he <;> rw [he]
      · exact ih
      · exact ih.get_root
  | verify_proof t p _ ih =>
      rw [verify_proof_snd]
      exact ih.get_root
  | get_tree_info t _ ih =>
      rw [get_tree_info_snd]
      exact ih.get_root
  | serialize t _ ih =>
      rw [serialize_snd]
      exact ih.get_root
  | deserialize t x _ ih =>
      exact Inv.deserialize H _ ih.synced

/-- Full characterization of `get_proof_by_index` at a valid index: the
returned proof carries the leaf hash at that index, the index itself, the
specification walk's sibling and direction lists, and the reference root;
the post-state is the built tree. -/
theorem get_proof_by_index_char {H : String → String} {t : MerkleTree}
    (hInv : Inv H t) (i : Int) (h0 : 0 ≤ i)
    (hlt : i < (t.leaf_hashes.length : Int)) :
    t.get_proof_by_index H i =
      (some { leaf_hash := t.leaf_hashes.getD i.toNat ""
              leaf_index := i
              proof_hashes := (proofSpec H t.leaf_hashes i.toNat).1
              proof_directions := (proofSpec H t.leaf_hashes i.toNat).2
              root_hash := rootSpec H t.leaf_hashes },
        (t.get_root H).2) := by
  have hcond : ¬(i < 0 ∨ (t.leaf_hashes.length : Int) ≤ i) := by omega
  have hlv := get_root_snd_leaves H t
  simp only [MerkleTree.get_proof_by_index, if_neg hcond]
  by_cases h1 : ((t.get_root H).2).leaf_hashes.length = 1
  · rw [if_pos h1]
    have hlen1 : t.leaf_hashes.length = 1 := by rw [← hlv.2]; exact h1
    obtain ⟨a, ha⟩ := List.length_eq_one.mp hlen1
    obtain rfl : i = 0 := by omega
    rw [get_root_fst hInv]
    simp [hlv.2, ha, proofSpec, rootSpec]
  · rw [if_neg h1]
    have h2 : 2 ≤ t.leaf_hashes.length := by
      rw [hlv.2] at h1
      omega
    have hzlen : i.toNat < (List.zipWith mkLeafNode t.leaf_hashes t.leaves).length := by
      rw [List.length_zipWith]
      have := hInv.length_eq
      omega
    rw [get_root_cache hInv h2, proofLoop_spec H _ _ hzlen,
      zipWith_mkLeafNode_hashes _ _ hInv.length_eq, hlv.2, get_root_fst hInv]

/-!
## Lookup, construction and verification helper lemmas
-/

/-- Characterization of the first-match lookup: `none` exactly on absent
values, and a returned index is the first in-range occurrence. -/
theorem indexOf?_spec (d : String) :
    ∀ l : List String,
      (indexOf? d l = none ↔ d ∉ l)
      ∧ ∀ i, indexOf? d l = some i →
          i < l.length ∧ l.getD i "" = d ∧ d ∈ l
            ∧ ∀ j, j < i → l.getD j "" ≠ d
  | [] => by simp [indexOf?]
  | a :: l => by
      have ih := indexOf?_spec d l
      constructor
      · by_cases ha : a = d
        · simp [indexOf?, ha]
        · simp only [indexOf?, if_neg ha, Option.map_eq_none', ih.1,
            List.mem_cons, not_or]
          constructor
          · intro h
            exact ⟨fun hd => ha hd.symm, h⟩
          · intro h
            exact h.2
      · intro i hi
        by_cases ha : a = d
        · simp only [indexOf?, if_pos ha, Option.some.injEq] at hi
          subst hi
          subst ha
          exact ⟨by simp, rfl, by simp, fun j hj => by omega⟩
        · simp only [indexOf?, if_neg ha] at hi
          rcases hk : indexOf? d l with _ | k
          · rw [hk] at hi
            simp at hi
          · rw [hk] at hi
            simp only [Option.map_some'] at hi
            obtain rfl : k + 1 = i := Option.some.inj hi
            obtain ⟨h1, h2, h3, h4⟩ := ih.2 k hk
            refine ⟨by simpa using h1, h2, by simp [h3], ?_⟩
            intro j hj
            match j with
            | 0 => simpa using ha
            | j + 1 =>
                have := h4 j (by omega)
                simpa using this

/-- A run of `add_leaf` calls appends the data and its hashes in order. -/
theorem foldl_add_leaf_stores (H : String → String) :
    ∀ (ls : List String) (t : MerkleTree),
      (ls.foldl (fun t d => (t.add_leaf H d).2) t).leaves = t.leaves ++ ls
        ∧ (ls.foldl (fun t d => (t.add_leaf H d).2) t).leaf_hashes
            = t.leaf_hashes ++ ls.map H
  | [], t => by simp
  | d :: ls, t => by
      simp only [List.foldl_cons, List.map_cons]
      rcases foldl_add_leaf_stores H ls ((t.add_leaf H d).2) with ⟨h1, h2⟩
      rw [h1, h2]
      simp [MerkleTree.add_leaf]

/-- The leaf stores of a tree built by `add_leaf` calls alone. -/
theorem ofLeaves_stores (H : String → String) (ls : List String) :
    (ofLeaves H ls).leaves = ls ∧ (ofLeaves H ls).leaf_hashes = ls.map H := by
  have := foldl_add_leaf_stores H ls MerkleTree.init
  simpa [ofLeaves, MerkleTree.init] using this

/-- A tree built by `add_leaf` calls alone has no cached root or levels. -/
theorem foldl_add_leaf_unbuilt (H : String → String) :
    ∀ (ls : List String) (t : MerkleTree), t.root = none → t.tree_cache = [] →
      ((ls.foldl (fun t d => (t.add_leaf H d).2) t).root = none
        ∧ (ls.foldl (fun t d => (t.add_leaf H d).2) t).tree_cache = [])
  | [], _, h1, h2 => ⟨h1, h2⟩
  | _ :: ls, _, _, _ => foldl_add_leaf_unbuilt H ls _ rfl rfl

/-- `ofLeaves` is unbuilt: no root, empty cache. -/
theorem ofLeaves_unbuilt (H : String → String) (ls : List String) :
    (ofLeaves H ls).root = none ∧ (ofLeaves H ls).tree_cache = [] :=
  foldl_add_leaf_unbuilt H ls MerkleTree.init rfl rfl

/-- Trees built by `add_leaf` runs are reachable states. -/
theorem foldl_add_leaf_reachable (H : String → String) :
    ∀ (ls : List String) (t : MerkleTree), Reachable H t →
      Reachable H (ls.foldl (fun t d => (t.add_leaf H d).2) t)
  | [], _, h => h
  | d :: ls, t, h => foldl_add_leaf_reachable H ls _ (Reachable.add_leaf t d h)

/-- `ofLeaves` produces a reachable state. -/
theorem ofLeaves_reachable (H : String → String) (ls : List String) :
    Reachable H (ofLeaves H ls) :=
  foldl_add_leaf_reachable H ls MerkleTree.init Reachable.init

/-- A proof built from the specification walk verifies standalone against
the reference root. -/
theorem specProof_verify (H : String → String) (hs : List String) (li : Int)
    (i : Nat) (hi : i < hs.length) :
    MerkleProof.verify H
      { leaf_hash := hs.getD i ""
        leaf_index := li
        proof_hashes := (proofSpec H hs i).1
        proof_directions := (proofSpec H hs i).2
        root_hash := rootSpec H hs } = some true := by
  unfold MerkleProof.verify
  dsimp only
  rw [verifyChain_proofSpec H hs i hi]
  simp

/-- When a proof carries the tree's reference root, the tree-bound check
reduces to the standalone check. -/
theorem verify_proof_of_root_match {H : String → String} {t : MerkleTree}
    (hInv : Inv H t) (p : MerkleProof)
    (hroot : p.root_hash = rootSpec H t.leaf_hashes) :
    (t.verify_proof H p).1 = p.verify H := by
  simp only [MerkleTree.verify_proof]
  rw [get_root_fst hInv, if_pos hroot]

/-- At any valid index of an invariant-satisfying tree, `get_proof_by_index`
returns a proof that passes both the standalone and the tree-bound check. -/
theorem get_proof_by_index_valid_verifies {H : String → String}
    {t : MerkleTree} (hInv : Inv H t) (i : Int) (h0 : 0 ≤ i)
    (hlt : i < (t.leaf_hashes.length : Int)) :
    ∃ (p : MerkleProof) (t' : MerkleTree),
      t.get_proof_by_index H i = (some p, t')
        ∧ p.verify H = some true
        ∧ (t'.verify_proof H p).1 = some true := by
  refine ⟨_, _, get_proof_by_index_char hInv i h0 hlt,
    specProof_verify H t.leaf_hashes i i.toNat (by omega), ?_⟩
  have hInv' : Inv H ((t.get_root H).2) := hInv.get_root
  have hlv := get_root_snd_leaves H t
  rw [verify_proof_of_root_match hInv' _ (by rw [hlv.2])]
  exact specProof_verify H t.leaf_hashes i i.toNat (by omega)

/-- `deserialize` installs the exported leaf stores verbatim. -/
theorem deserialize_stores (H : String → String) (d : SerializedTree) :
    (MerkleTree.deserialize H d).leaves = d.leaves
      ∧ (MerkleTree.deserialize H d).leaf_hashes = d.leaf_hashes := by
  unfold MerkleTree.deserialize
  split_ifs with h
  · exact build_tree_snd_leaves H _
  · exact ⟨rfl, rfl⟩

/-!
## The claims
-/

/-- C1: for every leaf sequence, `build_tree()` / `get_root()` returns
exactly the reference root — `H("")` for zero leaves, the single leaf's
hash for one leaf, and otherwise the bottom-up fold that pairs adjacent
nodes left-to-right with `H(left || right)` and pairs an odd level's final
node with itself; in particular for `["data1", "data2", "data3"]` the root
is `H(H(h1 || h2) || H(h3 || h3))` where `hi = H("datai")`. -/
theorem build_tree_matches_reference_root :
    (∀ (H : String → String) (ls : List String),
        ((ofLeaves H ls).build_tree H).1 = referenceRoot H ls
          ∧ ((ofLeaves H ls).get_root H).1 = referenceRoot H ls)
    ∧ ∀ H : String → String,
        ((ofLeaves H ["data1", "data2", "data3"]).build_tree H).1
          = H (H (H "data1" ++ H "data2") ++ H (H "data3" ++ H "data3")) := by
  have hmain : ∀ (H : String → String) (ls : List String),
      ((ofLeaves H ls).build_tree H).1 = referenceRoot H ls := by
    intro H ls
    have hst := ofLeaves_stores H ls
    have hsync := (ofLeaves_reachable H ls).inv.length_eq
    rw [build_tree_fst H _ hsync, hst.2, referenceRoot]
  refine ⟨fun H ls => ⟨hmain H ls, ?_⟩, fun H => ?_⟩
  · have hroot := (ofLeaves_unbuilt H ls).1
    unfold MerkleTree.get_root
    rw [hroot]
    exact hmain H ls
  · rw [hmain H ["data1", "data2", "data3"]]
    simp [referenceRoot, rootSpec, levelUp]

/-- C2: for every tree built by a sequence of `add_leaf` calls and every
leaf value that was added, `get_proof` returns a proof which passes both
the standalone check `proof.verify()` and the tree-bound check
`tree.verify_proof(proof)`. -/
theorem proof_completeness :
    ∀ (H : String → String) (ls : List String) (d : String), d ∈ ls →
      ∃ (p : MerkleProof) (t' : MerkleTree),
        (ofLeaves H ls).get_proof H d = (some p, t')
          ∧ p.verify H = some true
          ∧ (t'.verify_proof H p).1 = some true := by
  intro H ls d hmem
  have hst := ofLeaves_stores H ls
  have hInv := (ofLeaves_reachable H ls).inv
  have hmem' : d ∈ (ofLeaves H ls).leaves := by rw [hst.1]; exact hmem
  have hne : ¬ indexOf? d (ofLeaves H ls).leaves = none := by
    rw [(indexOf?_spec d _).1]
    simpa using hmem'
  rcases hk : indexOf? d (ofLeaves H ls).leaves with _ | k
  · exact absurd hk hne
  · obtain ⟨hlt, -, -, -⟩ := (indexOf?_spec d _).2 k hk
    have hlen := hInv.length_eq
    obtain ⟨p, t', hchar, hv, hvp⟩ :=
      get_proof_by_index_valid_verifies hInv (k : Int) (by omega) (by omega)
    refine ⟨p, t', ?_, hv, hvp⟩
    unfold MerkleTree.get_proof
    rw [hk]
    exact hchar

/-- C3: `MerkleProof.verify` computes exactly the specification's fold over
the `(sibling, direction)` pairs and compares the result with `root_hash`;
and `tree.verify_proof(proof)` succeeds exactly when the proof's root
matches `tree.get_root()` and the standalone fold succeeds. -/
theorem verify_fold_characterization :
    (∀ (H : String → String) (p : MerkleProof),
        p.proof_hashes.length ≤ p.proof_directions.length →
        p.verify H = some (decide (specFold H p.leaf_hash
          (p.proof_hashes.zip p.proof_directions) = p.root_hash)))
    ∧ ∀ (H : String → String) (t : MerkleTree) (p : MerkleProof),
        (t.verify_proof H p).1 = some true
          ↔ (p.root_hash = (t.get_root H).1 ∧ p.verify H = some true) := by
  constructor
  · intro H p h
    unfold MerkleProof.verify
    rw [verifyChain_eq_specFold H _ _ _ h]
    rfl
  · intro H t p
    simp only [MerkleTree.verify_proof]
    by_cases h : p.root_hash = (t.get_root H).1
    · rw [if_pos h]
      simp [h]
    · rw [if_neg h]
      simp [h]

/-- C4: at every valid index of a reachable tree, `get_proof_by_index`
collects per level below the root the sibling at `index + 1` (direction
`"right"`) for an even index or `index - 1` (direction `"left"`) for an
odd one, substituting the node's own hash when the sibling is out of
range, appending one sibling and one direction per level (equal-length
lists, leaf-to-root order) and halving the index — i.e. the `proofSpec`
walk; a single-leaf tree yields empty lists. -/
theorem get_proof_by_index_steps :
    ∀ (H : String → String) (t : MerkleTree), Reachable H t →
      ∀ i : Int, 0 ≤ i → i < (t.leaf_hashes.length : Int) →
        ∃ (p : MerkleProof) (t' : MerkleTree),
          t.get_proof_by_index H i = (some p, t')
            ∧ p.proof_hashes = (proofSpec H t.leaf_hashes i.toNat).1
            ∧ p.proof_directions = (proofSpec H t.leaf_hashes i.toNat).2
            ∧ p.proof_hashes.length = p.proof_directions.length
            ∧ (t.leaf_hashes.length = 1 →
                p.proof_hashes = [] ∧ p.proof_directions = []) := by
  intro H t hr i h0 hlt
  refine ⟨_, _, get_proof_by_index_char hr.inv i h0 hlt, rfl, rfl,
    proofSpec_length H _ _, ?_⟩
  intro h1
  obtain ⟨a, ha⟩ := List.length_eq_one.mp h1
  rw [ha]
  simp [proofSpec]

/-- C5: on every reachable tree state a non-empty level cache is exactly
the level decomposition of the current leaf store, and every `add_leaf`
call clears both the level cache and the cached root before returning. -/
theorem cache_consistency_invariant :
    ∀ (H : String → String) (t : MerkleTree), Reachable H t →
      (t.tree_cache ≠ [] →
        t.tree_cache
          = buildLevels H (List.zipWith mkLeafNode t.leaf_hashes t.leaves))
      ∧ ∀ (u : MerkleTree) (d : String),
          ((u.add_leaf H d).2).tree_cache = [] ∧ ((u.add_leaf H d).2).root = none := by
  intro H t hr
  exact ⟨fun h => (hr.inv.cache_inv h).1, fun u d => ⟨rfl, rfl⟩⟩

/-- A concrete hash function used to instantiate the abstract `H` on
concrete inputs. -/
def H0 : String → String := fun s => "(" ++ s ++ ")"

/-- C6 counterexample: a proof with one sibling hash but an empty direction
list, carrying the empty tree's root, makes `MerkleTree.verify_proof` hit
`self.proof_directions[0]` out of range — Python raises `IndexError`
(modelled by `none`) instead of returning a boolean, refuting the claim
that `verify_proof` never raises on malformed proofs. -/
theorem verify_proof_raises_on_short_directions :
    (MerkleTree.init.verify_proof H0
      { leaf_hash := "x", leaf_index := 0, proof_hashes := ["y"],
        proof_directions := [], root_hash := H0 "" }).1 = none := rfl

/-- C6 amended: the module-level `verify_evidence_inclusion` always
returns a boolean and treats malformed dictionaries (e.g. a missing
`proof_directions` key) as `false`; `MerkleTree.verify_proof`, however,
raises exactly when the proof's root matches the tree root and the
directions list is shorter than the hashes list — Python's short-circuit
`and` otherwise returns `False` before the fold runs. -/
theorem verify_totality_amended :
    (∀ (H : String → String) (e : String) (pd : ProofDict) (r : String),
        verify_evidence_inclusion H e pd r = true
          ∨ verify_evidence_inclusion H e pd r = false)
    ∧ (∀ (H : String → String) (e : String) (pd : ProofDict) (r : String),
        pd.proof_directions = none → verify_evidence_inclusion H e pd r = false)
    ∧ ∀ (H : String → String) (t : MerkleTree) (p : MerkleProof),
        (t.verify_proof H p).1 = none
          ↔ (p.root_hash = (t.get_root H).1
              ∧ p.proof_directions.length < p.proof_hashes.length) := by
  refine ⟨?_, ?_, ?_⟩
  · intro H e pd r
    cases h : verify_evidence_inclusion H e pd r
    · exact Or.inr rfl
    · exact Or.inl rfl
  · intro H e pd r h
    obtain ⟨lh, li, phs, pds, rh⟩ := pd
    obtain rfl : pds = none := h
    cases lh <;> cases li <;> cases phs <;> cases rh <;> rfl
  · intro H t p
    simp only [MerkleTree.verify_proof]
    by_cases h : p.root_hash = (t.get_root H).1
    · rw [if_pos h]
      unfold MerkleProof.verify
      rcases hc : verifyChain H p.proof_hashes p.proof_directions p.leaf_hash
        with _ | c
      · simp [h, (verifyChain_eq_none_iff H _ _ _).mp hc]
      · have hnot : ¬ p.proof_directions.length < p.proof_hashes.length := by
          rw [← verifyChain_eq_none_iff H p.proof_hashes p.proof_directions
            p.leaf_hash, hc]
          simp
        simp [h, hnot]
    · rw [if_neg h]
      simp [h]

/-- C7: serializing a reachable tree and deserializing the exported
document — even after the exported `root_hash` field was replaced by an
arbitrary value — yields a tree whose recomputed root equals the original
root (the tampered field is ignored) and whose every leaf proof passes
both verification checks. -/
theorem serialize_deserialize_round_trip :
    ∀ (H : String → String) (t : MerkleTree), Reachable H t → ∀ x : String,
      ((MerkleTree.deserialize H
          { (t.serialize H).1 with root_hash := x }).get_root H).1
        = (t.get_root H).1
      ∧ ∀ i : Nat,
          i < (MerkleTree.deserialize H
              { (t.serialize H).1 with root_hash := x }).leaf_hashes.length →
          ∃ (p : MerkleProof) (t2 : MerkleTree),
            (MerkleTree.deserialize H
                { (t.serialize H).1 with root_hash := x }).get_proof_by_index
                H (i : Int)
              = (some p, t2)
              ∧ p.verify H = some true
              ∧ (t2.verify_proof H p).1 = some true := by
  intro H t hr x
  have hInv := hr.inv
  have hD : ({ (t.serialize H).1 with root_hash := x } : SerializedTree).leaf_hashes
      = t.leaf_hashes := rfl
  have hDl : ({ (t.serialize H).1 with root_hash := x } : SerializedTree).leaves
      = t.leaves := rfl
  have hInvD : Inv H (MerkleTree.deserialize H
      { (t.serialize H).1 with root_hash := x }) :=
    Inv.deserialize H _ (by rw [hD, hDl]; exact hInv.synced)
  have hst := deserialize_stores H { (t.serialize H).1 with root_hash := x }
  constructor
  · rw [get_root_fst hInvD, get_root_fst hInv, hst.2, hD]
  · intro i hi
    exact get_proof_by_index_valid_verifies hInvD (i : Int) (by omega) (by omega)

/-- C8: the module-level `verify_evidence_inclusion(raw, proof, root)`
returns `true` exactly when the re-hash of the raw value equals the
proof's leaf hash, the proof's root equals the expected root, and the
standalone fold succeeds; in particular a mismatched expected root yields
`false` even for an internally valid proof, and never an exception. -/
theorem verify_evidence_inclusion_characterization :
    (∀ (H : String → String) (raw : String) (p : MerkleProof) (r : String),
        verify_evidence_inclusion H raw p.to_dict r = true
          ↔ (p.leaf_hash = H raw ∧ p.root_hash = r ∧ p.verify H = some true))
    ∧ ∀ (H : String → String) (raw : String) (p : MerkleProof) (r : String),
        p.root_hash ≠ r → verify_evidence_inclusion H raw p.to_dict r = false := by
  have hshow : ∀ (H : String → String) (raw : String) (p : MerkleProof) (r : String),
      verify_evidence_inclusion H raw p.to_dict r
        = if p.leaf_hash = H raw ∧ p.root_hash = r
          then (p.verify H).getD false else false := fun _ _ _ _ => rfl
  constructor
  · intro H raw p r
    rw [hshow]
    by_cases hc : p.leaf_hash = H raw ∧ p.root_hash = r
    · rw [if_pos hc]
      rcases hv : p.verify H with _ | b
      · simp [hc.1, hc.2, hv]
      · cases b <;> simp [hc.1, hc.2, hv]
    · rw [if_neg hc]
      constructor
      · intro h
        exact absurd h (by simp)
      · intro h
        exact absurd ⟨h.1, h.2.1⟩ hc
  · intro H raw p r h
    rw [hshow, if_neg (fun hc => h hc.2)]

/-- C9: `get_proof_by_index` returns `None` exactly on indices outside
`[0, leaf_count)`; `get_proof` returns `None` exactly when the value is
absent from the leaf store, and otherwise returns the proof of the first
(lowest-index) occurrence — never an exception. -/
theorem proof_lookup_semantics :
    (∀ (H : String → String) (t : MerkleTree) (i : Int),
        (t.get_proof_by_index H i).1 = none
          ↔ (i < 0 ∨ (t.leaf_hashes.length : Int) ≤ i))
    ∧ ∀ (H : String → String) (t : MerkleTree) (d : String), Reachable H t →
        ((t.get_proof H d).1 = none ↔ d ∉ t.leaves)
        ∧ (d ∈ t.leaves →
            ∃ (p : MerkleProof) (t' : MerkleTree) (i : Nat),
              t.get_proof H d = (some p, t')
                ∧ p.leaf_index = (i : Int)
                ∧ i < t.leaves.length
                ∧ t.leaves.getD i "" = d
                ∧ ∀ j, j < i → t.leaves.getD j "" ≠ d) := by
  have hbound : ∀ (H : String → String) (t : MerkleTree) (i : Int),
      (t.get_proof_by_index H i).1 = none
        ↔ (i < 0 ∨ (t.leaf_hashes.length : Int) ≤ i) := by
    intro H t i
    by_cases hcond : (i < 0 ∨ (t.leaf_hashes.length : Int) ≤ i)
    · simp [MerkleTree.get_proof_by_index, hcond]
    · simp only [MerkleTree.get_proof_by_index, if_neg hcond]
      split_ifs <;> simp [hcond]
  refine ⟨hbound, ?_⟩
  intro H t d hr
  have hlen := hr.inv.length_eq
  constructor
  · unfold MerkleTree.get_proof
    rcases hk : indexOf? d t.leaves with _ | k
    · simp [(indexOf?_spec d t.leaves).1.mp hk]
    · obtain ⟨hlt, -, hmem, -⟩ := (indexOf?_spec d t.leaves).2 k hk
      rw [hbound]
      constructor
      · intro h
        omega
      · intro h
        exact absurd hmem h
  · intro hmem
    rcases hk : indexOf? d t.leaves with _ | k
    · exact absurd hmem (((indexOf?_spec d t.leaves).1.mp hk))
    · obtain ⟨hlt, hget, -, hfirst⟩ := (indexOf?_spec d t.leaves).2 k hk
      have hgp : MerkleTree.get_proof H t d
          = (some { leaf_hash := t.leaf_hashes.getD (k : Int).toNat ""
                    leaf_index := (k : Int)
                    proof_hashes := (proofSpec H t.leaf_hashes (k : Int).toNat).1
                    proof_directions := (proofSpec H t.leaf_hashes (k : Int).toNat).2
                    root_hash := rootSpec H t.leaf_hashes },
              (t.get_root H).2) := by
        unfold MerkleTree.get_proof
        rw [hk]
        exact get_proof_by_index_char hr.inv (k : Int) (by omega) (by omega)
      exact ⟨_, _, k, hgp, rfl, hlt, hget, hfirst⟩

/-- C10: the tree-bound method `MerkleTree.verify_evidence_inclusion` can
never return `True`: an absent evidence hash yields `False`, and a present
one reaches `self.generate_proof`, a method that does not exist on the
class, so Python raises `AttributeError`. -/
theorem method_verify_evidence_inclusion_never_true :
    ∀ (t : MerkleTree) (e : String),
      t.verify_evidence_inclusion e ≠ Except.ok true
      ∧ (e ∉ t.leaf_hashes → t.verify_evidence_inclusion e = Except.ok false)
      ∧ (e ∈ t.leaf_hashes →
          t.verify_evidence_inclusion e = Except.error PyError.attributeError) := by
  intro t e
  unfold MerkleTree.verify_evidence_inclusion
  by_cases h : e ∈ t.leaf_hashes
  · rw [if_pos h]
    exact ⟨by simp, fun hn => absurd h hn, fun _ => rfl⟩
  · rw [if_neg h]
    exact ⟨by simp, fun _ => rfl, fun hm => absurd hm h⟩

/-!
## Concrete instantiations
-/

/-- A concrete three-leaf tree, built by three `add_leaf` calls. -/
def tW : MerkleTree := ofLeaves H0 ["data1", "data2", "data3"]

/-- The concrete tree is a reachable state. -/
theorem tW_reachable : Reachable H0 tW := ofLeaves_reachable H0 _

/-- The built form of the concrete tree. -/
def tB : MerkleTree := (tW.build_tree H0).2

/-- The built concrete tree is a reachable state. -/
theorem tB_reachable : Reachable H0 tB := Reachable.build_tree tW tW_reachable

/-- A concrete well-formed two-level proof object. -/
def pW : MerkleProof :=
  { leaf_hash := "x", leaf_index := 0, proof_hashes := ["s1", "s2"],
    proof_directions := ["left", "right"], root_hash := "r" }

/-- A concrete proof dictionary whose directions key is missing. -/
def pdW : ProofDict :=
  { leaf_hash := some "a", leaf_index := some 0, proof_hashes := some ["s"],
    proof_directions := none, root_hash := some "r" }

/-- A concrete trivially self-rooted proof object. -/
def pW8 : MerkleProof :=
  { leaf_hash := "lh", leaf_index := 0, proof_hashes := [],
    proof_directions := [], root_hash := "lh" }

/-- Witness for C2 at the concrete tree and its second leaf. -/
theorem proof_completeness_witness :
    "data2" ∈ ["data1", "data2", "data3"]
      ∧ ∃ (p : MerkleProof) (t' : MerkleTree),
          (ofLeaves H0 ["data1", "data2", "data3"]).get_proof H0 "data2"
              = (some p, t')
            ∧ p.verify H0 = some true
            ∧ (t'.verify_proof H0 p).1 = some true :=
  ⟨by decide, proof_completeness H0 ["data1", "data2", "data3"] "data2" (by decide)⟩

/-- Witness for C3 at a concrete proof object. -/
theorem verify_fold_characterization_witness :
    pW.proof_hashes.length ≤ pW.proof_directions.length
      ∧ pW.verify H0
          = some (decide (specFold H0 pW.leaf_hash
              (pW.proof_hashes.zip pW.proof_directions) = pW.root_hash)) :=
  ⟨by decide, verify_fold_characterization.1 H0 pW (by decide)⟩

/-- Witness for C4 at the concrete tree and index 1. -/
theorem get_proof_by_index_steps_witness :
    Reachable H0 tW ∧ 0 ≤ (1 : Int) ∧ (1 : Int) < (tW.leaf_hashes.length : Int)
      ∧ ∃ (p : MerkleProof) (t' : MerkleTree),
          tW.get_proof_by_index H0 1 = (some p, t')
            ∧ p.proof_hashes = (proofSpec H0 tW.leaf_hashes (1 : Int).toNat).1
            ∧ p.proof_directions = (proofSpec H0 tW.leaf_hashes (1 : Int).toNat).2
            ∧ p.proof_hashes.length = p.proof_directions.length
            ∧ (tW.leaf_hashes.length = 1 →
                p.proof_hashes = [] ∧ p.proof_directions = []) :=
  ⟨tW_reachable, by decide, by decide,
    get_proof_by_index_steps H0 tW tW_reachable 1 (by decide) (by decide)⟩

/-- Witness for C5 at the built concrete tree. -/
theorem cache_consistency_invariant_witness :
    Reachable H0 tB
      ∧ (tB.tree_cache ≠ [] →
          tB.tree_cache
            = buildLevels H0 (List.zipWith mkLeafNode tB.leaf_hashes tB.leaves))
      ∧ ∀ (u : MerkleTree) (d : String),
          ((u.add_leaf H0 d).2).tree_cache = [] ∧ ((u.add_leaf H0 d).2).root = none :=
  ⟨tB_reachable, (cache_consistency_invariant H0 tB tB_reachable).1,
    (cache_consistency_invariant H0 tB tB_reachable).2⟩

/-- Witness for the amended C6 at a dictionary missing its directions. -/
theorem verify_totality_amended_witness :
    pdW.proof_directions = none
      ∧ verify_evidence_inclusion H0 "e" pdW "r" = false :=
  ⟨rfl, verify_totality_amended.2.1 H0 "e" pdW "r" rfl⟩

/-- Witness for C7 at the concrete tree with a tampered exported root. -/
theorem serialize_deserialize_round_trip_witness :
    Reachable H0 tW
      ∧ (((MerkleTree.deserialize H0
              { (tW.serialize H0).1 with root_hash := "bogus" }).get_root H0).1
            = (tW.get_root H0).1
        ∧ ∀ i : Nat,
            i < (MerkleTree.deserialize H0
                { (tW.serialize H0).1 with root_hash := "bogus" }).leaf_hashes.length →
            ∃ (p : MerkleProof) (t2 : MerkleTree),
              (MerkleTree.deserialize H0
                  { (tW.serialize H0).1 with root_hash := "bogus" }).get_proof_by_index
                  H0 (i : Int)
                = (some p, t2)
                ∧ p.verify H0 = some true
                ∧ (t2.verify_proof H0 p).1 = some true) :=
  ⟨tW_reachable, serialize_deserialize_round_trip H0 tW tW_reachable "bogus"⟩

/-- Witness for C8 at a mismatched expected root. -/
theorem verify_evidence_inclusion_characterization_witness :
    pW8.root_hash ≠ "other"
      ∧ verify_evidence_inclusion H0 "raw" pW8.to_dict "other" = false :=
  ⟨by decide,
    verify_evidence_inclusion_characterization.2 H0 "raw" pW8 "other" (by decide)⟩

/-- Witness for C9 at the concrete tree and its second leaf value. -/
theorem proof_lookup_semantics_witness :
    Reachable H0 tW
      ∧ (((tW.get_proof H0 "data2").1 = none ↔ "data2" ∉ tW.leaves)
        ∧ ("data2" ∈ tW.leaves →
            ∃ (p : MerkleProof) (t' : MerkleTree) (i : Nat),
              tW.get_proof H0 "data2" = (some p, t')
                ∧ p.leaf_index = (i : Int)
                ∧ i < tW.leaves.length
                ∧ tW.leaves.getD i "" = "data2"
                ∧ ∀ j, j < i → tW.leaves.getD j "" ≠ "data2")) :=
  ⟨tW_reachable, proof_lookup_semantics.2 H0 tW "data2" tW_reachable⟩

/-- Witness for C10 at the concrete tree: an absent and a present hash. -/
theorem method_verify_evidence_inclusion_never_true_witness :
    "zzz" ∉ tW.leaf_hashes
      ∧ tW.verify_evidence_inclusion "zzz" = Except.ok false
      ∧ "(data2)" ∈ tW.leaf_hashes
      ∧ tW.verify_evidence_inclusion "(data2)"
          = Except.error PyError.attributeError :=
  ⟨by decide,
    (method_verify_evidence_inclusion_never_true tW "zzz").2.1 (by decide),
    by decide,
    (method_verify_evidence_inclusion_never_true tW "(data2)").2.2 (by decide)⟩

end Merkle
